import Mathlib

set_option maxHeartbeats 1000000

/-! Formal model of the DigitalOcean DDNS updater (do-ddns.go and
do-ddns.sh).  The definitions below are translated from the source; the
theorems at the end check the sentences of the specification against
them.  Strings are modelled by Lean strings and char lists, machine
integers by Nat and Int (no arithmetic in the program can overflow:
identifiers are only compared, waits are small). -/

/-- ASCII whitespace trimmed by strings.TrimSpace in Go
(tab, newline, vertical tab, form feed, carriage return, space). -/
def isSpaceGo (c : Char) : Bool :=
  c == ' ' || c == '\t' || c == '\n' || c == '\x0b' || c == '\x0c' || c == '\r'

/-- Drop trailing whitespace. -/
def dropTrail (l : List Char) : List Char :=
  (l.reverse.dropWhile isSpaceGo).reverse

/-- Model of strings.TrimSpace on char lists. -/
def trimL (l : List Char) : List Char :=
  dropTrail (l.dropWhile isSpaceGo)

/-- Model of strings.TrimSpace. -/
def trimS (s : String) : String :=
  String.mk (trimL s.data)

/-- Decimal accumulation, the loop state of dtoi in package net. -/
def valAcc (n : Nat) (l : List Char) : Nat :=
  l.foldl (fun a c => a * 10 + (c.toNat - 48)) n

/-- Value of a string of decimal digit characters. -/
def natOfDigits (l : List Char) : Nat := valAcc 0 l

/-- Loop of the dtoi helper of package net: reads a decimal prefix,
failing when the value reaches 0xFFFFFF or when no digit is present.
Returns the value and the number of characters consumed. -/
def dtoiGo : List Char → Nat → Nat → Option (Nat × Nat)
  | [], n, i => if i == 0 then none else some (n, i)
  | c :: cs, n, i =>
    if c.isDigit then
      let n2 := n * 10 + (c.toNat - 48)
      if 0xFFFFFF ≤ n2 then none else dtoiGo cs n2 (i + 1)
    else if i == 0 then none else some (n, i)

/-- Model of dtoi of package net. -/
def dtoi (l : List Char) : Option (Nat × Nat) := dtoiGo l 0 0

/-- One dotted-decimal field of parseIPv4 of package net: value bounded
by 255 and fields with a redundant leading zero rejected.  Returns the
value and the remaining input. -/
def parseOctet (s : List Char) : Option (Nat × List Char) :=
  match dtoi s with
  | none => none
  | some (n, c) =>
    if 255 < n then none
    else if 1 < c ∧ s.head? = some '0' then none
    else some (n, s.drop c)

/-- The dot separator step of the parseIPv4 loop of package net (for
the fields after the first, the Go code requires the next character to
be a dot and consumes it). -/
def expectDot : List Char → Option (List Char)
  | [] => none
  | c :: rest => if c = '.' then some rest else none

/-- Model of parseIPv4 of package net (a dotted quad, each field 0 to
255, no leading zeros), returning the four octet values; the Go loop
over the four fields is unrolled into an Option sequence. -/
def parseIPv4 (s : List Char) : Option (List Nat) :=
  (parseOctet s).bind (fun p1 =>
    (expectDot p1.2).bind (fun s2 =>
      (parseOctet s2).bind (fun p2 =>
        (expectDot p2.2).bind (fun s4 =>
          (parseOctet s4).bind (fun p3 =>
            (expectDot p3.2).bind (fun s6 =>
              (parseOctet s6).bind (fun p4 =>
                if p4.2 = [] then some [p1.1, p2.1, p3.1, p4.1] else none)))))))

/-- Hexadecimal digit value, as read by xtoi of package net. -/
def hexVal (c : Char) : Option Nat :=
  if '0' ≤ c ∧ c ≤ '9' then some (c.toNat - 48)
  else if 'a' ≤ c ∧ c ≤ 'f' then some (c.toNat - 97 + 10)
  else if 'A' ≤ c ∧ c ≤ 'F' then some (c.toNat - 65 + 10)
  else none

/-- Loop of the xtoi helper of package net. -/
def xtoiGo : List Char → Nat → Nat → Option (Nat × Nat)
  | [], n, i => if i == 0 then none else some (n, i)
  | c :: cs, n, i =>
    match hexVal c with
    | some v =>
      let n2 := n * 16 + v
      if 0xFFFFFF ≤ n2 then none else xtoiGo cs n2 (i + 1)
    | none => if i == 0 then none else some (n, i)

/-- Model of xtoi of package net. -/
def xtoi (l : List Char) : Option (Nat × Nat) := xtoiGo l 0 0

/-- Loop of parseIPv6 of package net.  The fuel is the number of 16-bit
groups still writable (the Go index i equals 16 minus twice the fuel),
acc holds the bytes written so far, ell the position of a double colon
when one was seen.  Returns the bytes, the unconsumed input and the
ellipsis position, or none where the Go code returns nil. -/
def v6Loop : Nat → List Char → List Nat → Option Nat →
    Option (List Nat × List Char × Option Nat)
  | 0, s, acc, ell => some (acc, s, ell)
  | fuel + 1, s, acc, ell =>
    match xtoi s with
    | none => none
    | some (n, c) =>
      if 0xFFFF < n then none
      else if c < s.length ∧ s.get? c = some '.' then
        if ell = none ∧ acc.length ≠ 12 then none
        else if 16 < acc.length + 4 then none
        else
          match parseIPv4 s with
          | none => none
          | some quad => some (acc ++ quad, [], ell)
      else
        let acc2 := acc ++ [n / 256, n % 256]
        let s2 := s.drop c
        if s2 = [] then some (acc2, [], ell)
        else if s2.head? ≠ some ':' ∨ s2.length = 1 then none
        else
          let s3 := s2.drop 1
          if s3.head? = some ':' then
            if ell.isSome then none
            else
              let s4 := s3.drop 1
              if s4 = [] then some (acc2, [], some acc2.length)
              else v6Loop fuel s4 acc2 (some acc2.length)
          else v6Loop fuel s3 acc2 ell

/-- Model of parseIPv6 of package net, producing the sixteen bytes. -/
def parseIPv6 (s : List Char) : Option (List Nat) :=
  let ell0 : Option Nat := if s.take 2 = [':', ':'] then some 0 else none
  let s0 := if s.take 2 = [':', ':'] then s.drop 2 else s
  if ell0 = some 0 ∧ s0 = [] then some (List.replicate 16 0)
  else
    match v6Loop 8 s0 [] ell0 with
    | none => none
    | some (acc, rest, ell) =>
      if rest ≠ [] then none
      else if acc.length < 16 then
        match ell with
        | none => none
        | some e =>
          some (acc.take e ++ List.replicate (16 - acc.length) 0 ++ acc.drop e)
      else if ell.isSome then none
      else some acc

/-- The sixteen-byte form Go gives a parsed dotted quad (the IPv4
function of package net). -/
def v4mapped (quad : List Nat) : List Nat :=
  [0, 0, 0, 0, 0, 0, 0, 0, 0, 0, 255, 255] ++ quad

/-- Model of the To4 method of package net: a four-byte address, or the
tail of a sixteen-byte address carrying the IPv4-mapped prefix. -/
def to4 (ip : List Nat) : Option (List Nat) :=
  if ip.length = 4 then some ip
  else if ip.length = 16 ∧ (ip.take 10).all (· == 0) ∧
      ip.get? 10 = some 255 ∧ ip.get? 11 = some 255 then
    some (ip.drop 12)
  else none

/-- Model of ParseIP of package net: dispatch on the first dot or colon
encountered. -/
def parseIP (s : List Char) : Option (List Nat) :=
  match s.find? (fun c => c == '.' || c == ':') with
  | some c =>
    if c = '.' then (parseIPv4 s).map v4mapped
    else if c = ':' then parseIPv6 s
    else none
  | none => none

/-- Model of getPublicIP in do-ddns.go: trim the body, parse it with
ParseIP and require a To4 form, otherwise fail with an invalid-address
error.  The body is the text read from the IP source endpoint. -/
def getPublicIP (body : String) : Except String String :=
  let ip := trimS body
  match parseIP ip.data with
  | none => Except.error ("invalid IPv4: " ++ ip)
  | some p => if (to4 p).isSome then Except.ok ip
              else Except.error ("invalid IPv4: " ++ ip)

/-- Modelled from the spec: a syntactically correct dotted-quad IPv4
address, read declaratively as four dot-separated decimal fields, each
nonempty, all digits, without a redundant leading zero, of value at
most 255. -/
def isOctetStr (f : List Char) : Bool :=
  decide (f ≠ []) && f.all (fun c => c.isDigit) &&
    (f.length == 1 || decide (f.head? ≠ some '0')) &&
    decide (natOfDigits f ≤ 255)

/-- Modelled from the spec: dotted-quad IPv4 syntax via splitting on
dots. -/
def specDottedQuad (s : List Char) : Bool :=
  match s.splitOn '.' with
  | [a, b, c, d] => isOctetStr a && isOctetStr b && isOctetStr c && isOctetStr d
  | _ => false

/-- The IPv6 acceptance branch of the resolver: the input dispatches to
parseIPv6 and the parsed address has a To4 form (an IPv4-mapped IPv6
literal). -/
def mappedV6Accepted (s : List Char) : Bool :=
  match s.find? (fun c => c == '.' || c == ':') with
  | some c =>
    if c = ':' then
      match parseIPv6 s with
      | some p => (to4 p).isSome
      | none => false
    else false
  | none => false

/-- The DomainRecord struct of do-ddns.go (field Type is written rtype
here). -/
structure DomainRecord where
  id : Int
  rtype : String
  name : String
  data : String
  ttl : Int
deriving DecidableEq

/-- The Config struct of do-ddns.go (fields not consumed by the
reconciliation core are omitted). -/
structure Config where
  domain : String
  name : String
  rtype : String
  ttl : Int
  perPage : Int
  maxRetries : Nat
  cleanupDuplicates : Bool
deriving DecidableEq

/-- Insertion into a list sorted by record identity. -/
def insertByID (r : DomainRecord) : List DomainRecord → List DomainRecord
  | [] => [r]
  | x :: xs => if r.id ≤ x.id then r :: x :: xs else x :: insertByID r xs

/-- Model of the sort.Slice call of do-ddns.go line 327 (less is
comparison of identities); insertion sort realizes the sorted-order
contract. -/
def sortByID : List DomainRecord → List DomainRecord
  | [] => []
  | x :: xs => insertByID x (sortByID xs)

/-- The canonical record of the Decide step: head of the matches sorted
by identity (matches[0] after the sort in do-ddns.go line 328). -/
def canonicalOf (l : List DomainRecord) : Option DomainRecord :=
  (sortByID l).head?

/-- The filter of do-ddns.go lines 306 to 311: records whose type and
name equal the configured target. -/
def matchesOf (cfg : Config) (recs : List DomainRecord) : List DomainRecord :=
  recs.filter (fun r => r.rtype == cfg.rtype && r.name == cfg.name)

/-- A mutating API call issued by the reconciler. -/
inductive ApiCall where
  | create (rtype name data : String) (ttl : Int)
  | update (id : Int) (data : String) (ttl : Int)
  | delete (id : Int)
deriving DecidableEq

/-- Outcomes of the mutating calls, supplied by the environment: whether
the create call succeeds, whether the update call succeeds, whether the
delete of a given identity succeeds, and whether the state-file write
succeeds. -/
structure Env where
  createOk : Bool
  updateOk : Bool
  deleteOk : Int → Bool
  writeOk : Bool

/-- Observable result of a run of the decision core: the mutating calls
issued in order, the final state-file content, the process exit code,
and the identities whose cleanup delete failed (they are only logged as
warnings in do-ddns.go). -/
structure RunResult where
  calls : List ApiCall
  stateFile : Option String
  exitCode : Nat
  cleanupFailed : List Int
deriving DecidableEq

/-- Model of writeLastIP of do-ddns.go: the new file content is the
address followed by a newline; a failed write keeps the previous
content (the caller only logs a warning). -/
def writeLastIPModel (prev : Option String) (ok : Bool) (ip : String) : Option String :=
  if ok then some (ip ++ "\n") else prev

/-- Model of readLastIP of do-ddns.go: empty for a missing file,
otherwise the trimmed content. -/
def readLastIPModel (f : Option String) : String :=
  match f with
  | none => ""
  | some s => trimS s

/-- Model of cleanup in do-ddns.go lines 366 to 383: a delete is issued
for every duplicate, and the identities whose delete failed are
collected (the loop continues past failures). -/
def cleanupModel (env : Env) (dups : List DomainRecord) : List ApiCall × List Int :=
  (dups.map (fun r => ApiCall.delete r.id),
   (dups.filter (fun r => !env.deleteOk r.id)).map (fun r => r.id))

/-- Decision and action phase of main in do-ddns.go lines 306 to 364:
filter the listed records, create on zero matches (exit 5 on failure),
otherwise sort by identity, take the head as canonical, write the state
and optionally clean duplicates when the data is already current, else
update the canonical record (exit 6 on failure), write the state, and
optionally clean duplicates. -/
def reconcile (cfg : Config) (recs : List DomainRecord) (newIP : String)
    (env : Env) (state0 : Option String) : RunResult :=
  let ms := matchesOf cfg recs
  if ms = [] then
    let c := ApiCall.create cfg.rtype cfg.name newIP cfg.ttl
    if env.createOk then
      ⟨[c], writeLastIPModel state0 env.writeOk newIP, 0, []⟩
    else ⟨[c], state0, 5, []⟩
  else
    match sortByID ms with
    | [] => ⟨[], state0, 0, []⟩
    | chosen :: rest =>
      let doClean := cfg.cleanupDuplicates ∧ 1 < ms.length
      let cl := cleanupModel env rest
      if chosen.data = newIP then
        if doClean then
          ⟨cl.1, writeLastIPModel state0 env.writeOk newIP, 0, cl.2⟩
        else
          ⟨[], writeLastIPModel state0 env.writeOk newIP, 0, []⟩
      else
        let u := ApiCall.update chosen.id newIP cfg.ttl
        if env.updateOk then
          if doClean then
            ⟨u :: cl.1, writeLastIPModel state0 env.writeOk newIP, 0, cl.2⟩
          else
            ⟨[u], writeLastIPModel state0 env.writeOk newIP, 0, []⟩
        else ⟨[u], state0, 6, []⟩

/-- A network operation of a full run. -/
inductive RunStep where
  | fetchIP
  | listRecords
  | api (c : ApiCall)
deriving DecidableEq

/-- Full-run model of main in do-ddns.go: resolve the public IP (exit 3
on an invalid address), list the records (exit 4 on failure), then run
the decision core.  The Go program performs no lock handling at all, so
the first argument is never consulted; it is present only so the
run-lock behaviour of the two implementations can be compared. -/
def goMain (_lockExists : Bool) (ipBody : String)
    (listResult : Except String (List DomainRecord)) (cfg : Config)
    (env : Env) (state0 : Option String) :
    List RunStep × Option String × Nat :=
  match getPublicIP ipBody with
  | Except.error _ => ([RunStep.fetchIP], state0, 3)
  | Except.ok newIP =>
    match listResult with
    | Except.error _ => ([RunStep.fetchIP, RunStep.listRecords], state0, 4)
    | Except.ok recs =>
      let r := reconcile cfg recs newIP env state0
      (RunStep.fetchIP :: RunStep.listRecords :: r.calls.map RunStep.api,
       r.stateFile, r.exitCode)

/-- Outcome of one attempt of the retry loop: a transport-level failure
of the HTTP client, or a response with its status, Retry-After header
value (empty when the header is absent, as the Get method of
http.Header reports it) and body. -/
inductive Outcome where
  | transport
  | resp (status : Nat) (retryAfter : String) (body : String)

/-- The last transient cause recorded by the loop of doRequest. -/
inductive Cause where
  | transport
  | rateLimited
  | serverError (status : Nat)
deriving DecidableEq

/-- Errors of doRequest: a non-retryable HTTP status carrying the
response body, or exhaustion of the attempts wrapping the last
transient cause (none when no attempt ran). -/
inductive ReqErr where
  | http (status : Nat) (body : String)
  | exceeded (last : Option Cause)
deriving DecidableEq

/-- Model of strconv.Atoi: an optional sign followed by one or more
decimal digits, rejecting values outside the signed 64-bit range. -/
def atoiGo (s : String) : Option Int :=
  match s.data with
  | [] => none
  | l =>
    let sd : Int × List Char :=
      match l with
      | '+' :: r => (1, r)
      | '-' :: r => (-1, r)
      | r => (1, r)
    if sd.2 = [] then none
    else if sd.2.all (fun c => c.isDigit) then
      let v := natOfDigits sd.2
      if sd.1 = 1 ∧ v ≤ 9223372036854775807 then some (v : Int)
      else if sd.1 = -1 ∧ v ≤ 9223372036854775808 then some (-(v : Int))
      else none
    else none

/-- The wait chosen for a 429 response in do-ddns.go lines 156 to 162:
the Retry-After header value when present and parsed by Atoi to a
positive integer, else the current backoff. -/
def wait429 (ra : String) (backoff : Nat) : Nat :=
  if ra ≠ "" then
    match atoiGo (trimS ra) with
    | some n => if 0 < n then n.toNat else backoff
    | none => backoff
  else backoff

/-- Retry loop of doRequest in do-ddns.go lines 119 to 190.  The oracle
gives the outcome of each attempt (numbered from 1), remaining is the
number of attempts left, backoff the current wait in seconds.  Returns
the result together with the list of sleeps performed, in order.  The
decoding of a structured provider error message into the non-retryable
error text is not modelled; the raw body is carried instead. -/
def doRequestGo (oracle : Nat → Outcome) :
    Nat → Nat → Nat → Option Cause → Except ReqErr (String × Nat) × List Nat
  | _, 0, _, lastErr => (Except.error (ReqErr.exceeded lastErr), [])
  | attempt, r + 1, backoff, _ =>
    match oracle attempt with
    | Outcome.transport =>
      let k := doRequestGo oracle (attempt + 1) r (min (backoff * 2) 64) (some Cause.transport)
      (k.1, backoff :: k.2)
    | Outcome.resp status ra body =>
      if 200 ≤ status ∧ status ≤ 299 then (Except.ok (body, status), [])
      else if status = 429 then
        let k := doRequestGo oracle (attempt + 1) r (min (backoff * 2) 64) (some Cause.rateLimited)
        (k.1, wait429 ra backoff :: k.2)
      else if 500 ≤ status ∧ status ≤ 599 then
        let k := doRequestGo oracle (attempt + 1) r (min (backoff * 2) 64)
          (some (Cause.serverError status))
        (k.1, backoff :: k.2)
      else (Except.error (ReqErr.http status body), [])

/-- Model of doRequest: attempts start at 1 with backoff 1s and no
recorded cause, bounded by the configured retry limit. -/
def doRequest (oracle : Nat → Outcome) (maxRetries : Nat) :
    Except ReqErr (String × Nat) × List Nat :=
  doRequestGo oracle 1 maxRetries 1 none

/-- One parsed page of the list-records response. -/
structure Page where
  records : List DomainRecord
  next : String
deriving DecidableEq

/-- Pagination loop of listAllRecords in do-ddns.go lines 199 to 220.
The oracle maps a URL to the outcome of fetching and parsing that page
(collapsing request and decode failures into an error).  The fuel
bounds the number of pages the model is allowed to fetch; none means
the loop was still running after fetching that many pages.  The source
loop itself carries no bound: it stops only on an error or on a blank
trimmed next cursor. -/
def listAllRecordsFuel (pages : String → Except String Page) :
    Nat → String → List DomainRecord → Option (Except String (List DomainRecord))
  | 0, _, _ => none
  | fuel + 1, url, acc =>
    match pages url with
    | Except.error e => some (Except.error e)
    | Except.ok p =>
      let acc2 := acc ++ p.records
      let nxt := trimS p.next
      if nxt = "" then some (Except.ok acc2)
      else listAllRecordsFuel pages fuel nxt acc2

/-- A linear provider with n pages: the page reached by the URL of
length i holds the records recsOf i and points to a URL of length
i + 1, the last page carrying a blank cursor.  The starting URL is the
empty string. -/
def chainOracle (n : Nat) (recsOf : Nat → List DomainRecord) (u : String) :
    Except String Page :=
  let i := u.data.length
  if i < n then
    Except.ok ⟨recsOf i, if i + 1 = n then "" else String.mk (List.replicate (i + 1) 'p')⟩
  else Except.error "no such page"

/-- A provider whose next cursor never becomes blank: every page is
empty and points to the same URL again. -/
def loopOracle (_ : String) : Except String Page :=
  Except.ok ⟨[], "x"⟩

/-- Model of the grep pattern of get_public_ip in do-ddns.sh: four
dot-separated fields of one to three digits (no value bound). -/
def shIsIPv4 (s : String) : Bool :=
  match s.data.splitOn '.' with
  | [a, b, c, d] =>
    [a, b, c, d].all (fun f =>
      decide (1 ≤ f.length) && decide (f.length ≤ 3) && f.all (fun c => c.isDigit))
  | _ => false

/-- All whitespace removed, as the awk gsub of read_last_ip does. -/
def stripAll (s : String) : String :=
  String.mk (s.data.filter (fun c => !isSpaceGo c))

/-- First line of a file content. -/
def firstLine (s : String) : String :=
  String.mk (s.data.takeWhile (fun c => c ≠ '\n'))

/-- Model of read_last_ip in do-ddns.sh: the first line with all
whitespace removed, empty for a missing file. -/
def shReadLastIP (f : Option String) : String :=
  match f with
  | none => ""
  | some s => stripAll (firstLine s)

/-- Environment of a shell run: whether listing, the PUT and the POST
succeed. -/
structure ShEnv where
  listOk : Bool
  putOk : Bool
  postOk : Bool

/-- Observable result of a shell run. -/
structure ShResult where
  steps : List RunStep
  stateFile : Option String
  exitCode : Nat
deriving DecidableEq

/-- The lowest-identity match, as selected by the awk program of
do-ddns.sh lines 194 to 198 over id and data pairs. -/
def minById (l : List (Int × String)) : Option (Int × String) :=
  l.foldl (fun acc p =>
    match acc with
    | none => some p
    | some q => if p.1 < q.1 then some p else some q) none

/-- Model of do-ddns.sh: the non-blocking lock guard of lines 31 to 37
followed by main (lines 178 to 224).  A run finding the lock file
present logs and exits 0 before any network operation.  Otherwise the
public IP is fetched (a failed fetch yields an empty string through the
or-true guard) and checked against the grep pattern (exit 3 on
failure), the cached IP short-circuits the provider calls when equal,
and the matching records (empty when listing failed, through the
or-true guard) select the lowest identity for an update, or a create is
issued when none match.  A failed PUT or POST aborts the script with
exit 1 before the state write. -/
def shMain (lockExists : Bool) (rtype rname : String) (ttl : Int)
    (ipResp : Option String) (found : List (Int × String)) (env : ShEnv)
    (state0 : Option String) : ShResult :=
  if lockExists then ⟨[], state0, 0⟩
  else
    let ip := ipResp.getD ""
    if shIsIPv4 ip = false then ⟨[RunStep.fetchIP], state0, 3⟩
    else
      let lastIp := shReadLastIP state0
      if lastIp ≠ "" ∧ lastIp = ip then ⟨[RunStep.fetchIP], state0, 0⟩
      else
        let ms := if env.listOk then found else []
        match minById ms with
        | some rc =>
          if rc.2 = ip then
            ⟨[RunStep.fetchIP, RunStep.listRecords], some (ip ++ "\n"), 0⟩
          else if env.putOk then
            ⟨[RunStep.fetchIP, RunStep.listRecords,
              RunStep.api (ApiCall.update rc.1 ip ttl)], some (ip ++ "\n"), 0⟩
          else
            ⟨[RunStep.fetchIP, RunStep.listRecords,
              RunStep.api (ApiCall.update rc.1 ip ttl)], state0, 1⟩
        | none =>
          if env.postOk then
            ⟨[RunStep.fetchIP, RunStep.listRecords,
              RunStep.api (ApiCall.create rtype rname ip ttl)], some (ip ++ "\n"), 0⟩
          else
            ⟨[RunStep.fetchIP, RunStep.listRecords,
              RunStep.api (ApiCall.create rtype rname ip ttl)], state0, 1⟩

/-! Sample fixtures used by the concrete witnesses. -/

def rec5 : DomainRecord := ⟨5, "A", "hq", "198.51.100.5", 300⟩

def rec9 : DomainRecord := ⟨9, "A", "hq", "198.51.100.9", 300⟩

def rec12 : DomainRecord := ⟨12, "A", "hq", "198.51.100.12", 300⟩

def cfg0 : Config := ⟨"example.org", "hq", "A", 300, 200, 6, false⟩

def cfgClean : Config := ⟨"example.org", "hq", "A", 300, 200, 6, true⟩

def env0 : Env := ⟨true, true, fun _ => true, true⟩

def envNoCreate : Env := ⟨false, true, fun _ => true, true⟩

def envNoUpdate : Env := ⟨true, false, fun _ => true, true⟩

/-- Whether a call is a delete. -/
def ApiCall.isDelete : ApiCall → Bool
  | ApiCall.delete _ => true
  | _ => false

/-- Transient outcome in the sense of claim C5: a transport failure or
a 5xx status. -/
def isTransient : Outcome → Bool
  | Outcome.transport => true
  | Outcome.resp status _ _ => decide (500 ≤ status ∧ status ≤ 599)

/-- The cause the retry loop records for a transient outcome. -/
def causeOf : Outcome → Cause
  | Outcome.transport => Cause.transport
  | Outcome.resp status _ _ => Cause.serverError status

/-- An endpoint failing with a transport error on every attempt. -/
def oracleTransport : Nat → Outcome := fun _ => Outcome.transport

/-- An endpoint answering 429 with Retry-After 0 once, then succeeding. -/
def oracle429zero : Nat → Outcome := fun i =>
  if i = 1 then Outcome.resp 429 "0" "" else Outcome.resp 200 "" "ok"

/-- An endpoint answering 429 with Retry-After 5 once, then succeeding. -/
def oracle429five : Nat → Outcome := fun i =>
  if i = 1 then Outcome.resp 429 "5" "" else Outcome.resp 200 "" "ok"

/-- Sample page contents for the pagination witness. -/
def recsOfSample : Nat → List DomainRecord :=
  fun i => [⟨Int.ofNat i, "A", "hq", "198.51.100.77", 300⟩]

/-! Lemmas about the sort used by the Decide step. -/

theorem insertByID_perm (r : DomainRecord) (l : List DomainRecord) :
    (insertByID r l).Perm (r :: l) := by
  induction l with
  | nil => simp [insertByID]
  | cons x xs ih =>
    simp only [insertByID]
    split
    · exact List.Perm.refl _
    · exact (List.Perm.cons x ih).trans (List.Perm.swap r x xs)

theorem sortByID_perm (l : List DomainRecord) : (sortByID l).Perm l := by
  induction l with
  | nil => simp [sortByID]
  | cons x xs ih =>
    exact (insertByID_perm x (sortByID xs)).trans (List.Perm.cons x ih)

theorem insertByID_pairwise (r : DomainRecord) (l : List DomainRecord)
    (h : l.Pairwise (fun a b => a.id ≤ b.id)) :
    (insertByID r l).Pairwise (fun a b => a.id ≤ b.id) := by
  induction l with
  | nil => simp [insertByID]
  | cons x xs ih =>
    rw [List.pairwise_cons] at h
    simp only [insertByID]
    split
    case isTrue hle =>
      refine List.Pairwise.cons ?_ (List.Pairwise.cons h.1 h.2)
      intro b hb
      rcases List.mem_cons.mp hb with hbx | hbs
      · exact hbx ▸ hle
      · exact le_trans hle (h.1 b hbs)
    case isFalse hgt =>
      refine List.Pairwise.cons ?_ (ih h.2)
      intro b hb
      rcases List.mem_cons.mp ((insertByID_perm r xs).mem_iff.mp hb) with hbr | hbs
      · exact hbr ▸ le_of_not_le hgt
      · exact h.1 b hbs

theorem sortByID_pairwise (l : List DomainRecord) :
    (sortByID l).Pairwise (fun a b => a.id ≤ b.id) := by
  induction l with
  | nil => simp [sortByID]
  | cons x xs ih => exact insertByID_pairwise x (sortByID xs) ih

theorem sortByID_eq_nil (l : List DomainRecord) (h : sortByID l = []) : l = [] := by
  have := (sortByID_perm l).length_eq
  rw [h] at this
  exact List.eq_nil_of_length_eq_zero this.symm

theorem sortByID_eq_of_perm (l l2 : List DomainRecord)
    (hperm : l.Perm l2) (hnodup : (l.map DomainRecord.id).Nodup) :
    sortByID l = sortByID l2 := by
  have hps : (sortByID l).Perm (sortByID l2) :=
    (sortByID_perm l).trans (hperm.trans (sortByID_perm l2).symm)
  have hanti : ∀ m : List DomainRecord, (m.map DomainRecord.id).Nodup →
      m.Pairwise (fun a b => a.id ≤ b.id) →
      m.Pairwise (fun a b => a.id < b.id ∨ a = b) := by
    intro m hnd hle
    have hne : m.Pairwise (fun a b => a.id ≠ b.id) := List.pairwise_map.mp hnd
    exact (hle.and hne).imp (fun h => Or.inl (lt_of_le_of_ne h.1 h.2))
  have hnd1 : ((sortByID l).map DomainRecord.id).Nodup :=
    (((sortByID_perm l).map DomainRecord.id).nodup_iff).mpr hnodup
  have hnd2 : ((sortByID l2).map DomainRecord.id).Nodup :=
    (((sortByID_perm l2).map DomainRecord.id).nodup_iff).mpr
      (((hperm.map DomainRecord.id).nodup_iff).mp hnodup)
  haveI : IsAntisymm DomainRecord (fun a b => a.id < b.id ∨ a = b) := by
    constructor
    intro a b hab hba
    rcases hab with h1 | h1
    · rcases hba with h2 | h2
      · exact absurd h2 (not_lt_of_lt h1)
      · exact h2.symm
    · exact h1
  exact List.eq_of_perm_of_sorted hps
    (hanti _ hnd1 (sortByID_pairwise l)) (hanti _ hnd2 (sortByID_pairwise l2))

/-- C1: for every non-empty set of matching records with pairwise
distinct identities, the record chosen as canonical by the Decide step
is the one with the minimum identity, and the choice is the same for
every permutation of the input order. -/
theorem c1_canonical_min_deterministic (l l2 : List DomainRecord)
    (hne : l ≠ []) (hnodup : (l.map DomainRecord.id).Nodup) (hperm : l.Perm l2) :
    ∃ c, canonicalOf l = some c ∧ c ∈ l ∧ (∀ r ∈ l, c.id ≤ r.id) ∧
      canonicalOf l2 = canonicalOf l := by
  cases hs : sortByID l with
  | nil => exact absurd (sortByID_eq_nil l hs) hne
  | cons c rest =>
    refine ⟨c, ?_, ?_, ?_, ?_⟩
    · simp [canonicalOf, hs]
    · exact (sortByID_perm l).mem_iff.mp (hs ▸ List.mem_cons_self c rest)
    · intro r hr
      have hr2 : r ∈ c :: rest := hs ▸ (sortByID_perm l).mem_iff.mpr hr
      rcases List.mem_cons.mp hr2 with h | h
      · exact h ▸ le_refl _
      · have hp := sortByID_pairwise l
        rw [hs, List.pairwise_cons] at hp
        exact hp.1 r h
    · rw [canonicalOf, canonicalOf, sortByID_eq_of_perm l l2 hperm hnodup]

/-- Witness for C1 at a concrete input. -/
theorem c1_canonical_min_deterministic_witness :
    ([rec9, rec5, rec12] : List DomainRecord) ≠ [] ∧
    ∃ c, canonicalOf [rec9, rec5, rec12] = some c ∧ c ∈ [rec9, rec5, rec12] ∧
      (∀ r ∈ [rec9, rec5, rec12], c.id ≤ r.id) ∧
      canonicalOf [rec12, rec9, rec5] = canonicalOf [rec9, rec5, rec12] :=
  ⟨by decide, c1_canonical_min_deterministic [rec9, rec5, rec12] [rec12, rec9, rec5]
    (by decide) (by decide) (by decide)⟩

/-! Lemmas about trimming, used to relate the resolver output and the
state-cache round trip. -/

theorem dropWhile_dropWhile_self (p : Char → Bool) (l : List Char) :
    (l.dropWhile p).dropWhile p = l.dropWhile p := by
  induction l with
  | nil => rfl
  | cons x xs ih =>
    by_cases h : p x
    · simp [List.dropWhile_cons, h, ih]
    · simp [List.dropWhile_cons, h]

theorem head?_dropWhile_not (p : Char → Bool) (l : List Char) (c : Char)
    (h : (l.dropWhile p).head? = some c) : p c = false := by
  induction l with
  | nil => simp [List.dropWhile] at h
  | cons x xs ih =>
    by_cases hx : p x
    · rw [List.dropWhile_cons, if_pos hx] at h
      exact ih h
    · rw [List.dropWhile_cons, if_neg hx] at h
      simp only [List.head?_cons, Option.some.injEq] at h
      subst h
      exact Bool.eq_false_iff.mpr hx

theorem dropTrail_idem (l : List Char) : dropTrail (dropTrail l) = dropTrail l := by
  simp [dropTrail, List.reverse_reverse, dropWhile_dropWhile_self]

theorem lengthDropWhileLe (p : Char → Bool) (l : List Char) :
    (l.dropWhile p).length ≤ l.length := by
  induction l with
  | nil => simp
  | cons x xs ih =>
    rw [List.dropWhile_cons]
    split
    · exact le_trans ih (by simp)
    · simp

theorem dropTrail_decomp (l : List Char) :
    l = dropTrail l ++ (l.reverse.takeWhile isSpaceGo).reverse := by
  have h := List.takeWhile_append_dropWhile (p := isSpaceGo) (l := l.reverse)
  calc l = l.reverse.reverse := (List.reverse_reverse l).symm
  _ = ((l.reverse.takeWhile isSpaceGo) ++ (l.reverse.dropWhile isSpaceGo)).reverse := by
        rw [h]
  _ = dropTrail l ++ (l.reverse.takeWhile isSpaceGo).reverse := by
        rw [List.reverse_append]; rfl

theorem trimL_idem (l : List Char) : trimL (trimL l) = trimL l := by
  show trimL (dropTrail (l.dropWhile isSpaceGo)) = trimL l
  have hstep : (dropTrail (l.dropWhile isSpaceGo)).dropWhile isSpaceGo =
      dropTrail (l.dropWhile isSpaceGo) := by
    cases hd : dropTrail (l.dropWhile isSpaceGo) with
    | nil => rfl
    | cons c cs =>
      have hhead : (l.dropWhile isSpaceGo).head? = some c := by
        have hdec := dropTrail_decomp (l.dropWhile isSpaceGo)
        rw [hd] at hdec
        rw [hdec]
        rfl
      have hc : isSpaceGo c = false := head?_dropWhile_not _ l c hhead
      rw [List.dropWhile_cons, if_neg (by simp [hc])]
  unfold trimL
  rw [hstep, dropTrail_idem]

theorem dropWhile_eq_self_of_length (p : Char → Bool) (l : List Char)
    (h : (l.dropWhile p).length = l.length) : l.dropWhile p = l := by
  have hsplit := List.takeWhile_append_dropWhile (p := p) (l := l)
  have hlen : (l.takeWhile p).length + (l.dropWhile p).length = l.length := by
    rw [← List.length_append, hsplit]
  have h0 : (l.takeWhile p).length = 0 := by omega
  have : l.takeWhile p = [] := List.eq_nil_of_length_eq_zero h0
  calc l.dropWhile p = [] ++ l.dropWhile p := rfl
  _ = l.takeWhile p ++ l.dropWhile p := by rw [this]
  _ = l := hsplit

theorem dropTrail_eq_self_of_length (l : List Char)
    (h : (dropTrail l).length = l.length) : dropTrail l = l := by
  have hdec := dropTrail_decomp l
  have hlen : (dropTrail l).length + (l.reverse.takeWhile isSpaceGo).reverse.length
      = l.length := by
    rw [← List.length_append, ← hdec]
  have h0 : (l.reverse.takeWhile isSpaceGo).reverse.length = 0 := by omega
  have ht : (l.reverse.takeWhile isSpaceGo).reverse = [] :=
    List.eq_nil_of_length_eq_zero h0
  rw [ht, List.append_nil] at hdec
  exact hdec.symm

theorem trimL_fixed_parts (l : List Char) (h : trimL l = l) :
    l.dropWhile isSpaceGo = l ∧ dropTrail l = l := by
  have hl1 : (dropTrail (l.dropWhile isSpaceGo)).length ≤ (l.dropWhile isSpaceGo).length := by
    unfold dropTrail
    rw [List.length_reverse]
    calc ((l.dropWhile isSpaceGo).reverse.dropWhile isSpaceGo).length
        ≤ (l.dropWhile isSpaceGo).reverse.length := lengthDropWhileLe _ _
    _ = (l.dropWhile isSpaceGo).length := List.length_reverse _
  have hl2 : (l.dropWhile isSpaceGo).length ≤ l.length := lengthDropWhileLe _ _
  have hl3 : (trimL l).length = l.length := by rw [h]
  have hd : l.dropWhile isSpaceGo = l := by
    apply dropWhile_eq_self_of_length
    have : (trimL l).length ≤ (l.dropWhile isSpaceGo).length := hl1
    omega
  refine ⟨hd, ?_⟩
  have : trimL l = dropTrail l := by unfold trimL; rw [hd]
  rw [← this, h]

theorem trimL_append_newline (l : List Char) (h : trimL l = l) :
    trimL (l ++ [Char.ofNat 10]) = l := by
  cases l with
  | nil => decide
  | cons a as =>
    obtain ⟨hdrop, htrail⟩ := trimL_fixed_parts _ h
    have ha : isSpaceGo a = false := by
      by_contra hcon
      have ha2 : isSpaceGo a = true := by
        cases hval : isSpaceGo a
        · exact absurd hval hcon
        · rfl
      have : ((a :: as).dropWhile isSpaceGo).length ≤ as.length := by
        rw [List.dropWhile_cons, if_pos ha2]
        exact lengthDropWhileLe _ _
      rw [hdrop] at this
      simp at this
    have hfront : ((a :: as) ++ [Char.ofNat 10]).dropWhile isSpaceGo =
        (a :: as) ++ [Char.ofNat 10] := by
      rw [List.cons_append, List.dropWhile_cons, if_neg (by simp [ha])]
    have hrevdrop : (a :: as).reverse.dropWhile isSpaceGo = (a :: as).reverse := by
      have := congrArg List.reverse htrail
      unfold dropTrail at this
      rwa [List.reverse_reverse] at this
    unfold trimL
    rw [hfront]
    unfold dropTrail
    rw [List.reverse_append]
    have hnl : isSpaceGo (Char.ofNat 10) = true := by decide
    show (List.dropWhile isSpaceGo ([Char.ofNat 10].reverse ++ (a :: as).reverse)).reverse
        = a :: as
    have : [Char.ofNat 10].reverse ++ (a :: as).reverse =
        Char.ofNat 10 :: (a :: as).reverse := by rfl
    rw [this, List.dropWhile_cons, if_pos hnl, hrevdrop, List.reverse_reverse]

theorem trimS_idem (s : String) : trimS (trimS s) = trimS s := by
  show String.mk (trimL (trimL s.data)) = String.mk (trimL s.data)
  rw [trimL_idem]

theorem trimS_append_newline (s : String) (h : trimS s = s) :
    trimS (s ++ "\n") = s := by
  have hdata : trimL s.data = s.data := congrArg String.data h
  show String.mk (trimL (s ++ "\n").data) = s
  have hd : (s ++ "\n").data = s.data ++ [Char.ofNat 10] := rfl
  rw [hd, trimL_append_newline _ hdata]

theorem getPublicIP_ok_trim (body out : String) (h : getPublicIP body = Except.ok out) :
    out = trimS body := by
  simp only [getPublicIP] at h
  split at h
  · exact absurd h (by simp)
  · split at h
    · injection h with h2
      exact h2.symm
    · exact absurd h (by simp)

theorem writeLastIPModel_ok (state0 : Option String) (ip : String) :
    writeLastIPModel state0 true ip = some (ip ++ "\n") := rfl

/-! Lemmas computing the decision core on its branches. -/

theorem reconcile_zero_eq (cfg : Config) (recs : List DomainRecord) (newIP : String)
    (env : Env) (state0 : Option String) (hzero : matchesOf cfg recs = []) :
    reconcile cfg recs newIP env state0 =
      (if env.createOk then
        ⟨[ApiCall.create cfg.rtype cfg.name newIP cfg.ttl],
          writeLastIPModel state0 env.writeOk newIP, 0, []⟩
      else ⟨[ApiCall.create cfg.rtype cfg.name newIP cfg.ttl], state0, 5, []⟩) := by
  simp only [reconcile, hzero, eq_self_iff_true, if_true]

theorem reconcile_nonempty_eq (cfg : Config) (recs : List DomainRecord) (newIP : String)
    (env : Env) (state0 : Option String) (chosen : DomainRecord)
    (rest : List DomainRecord)
    (hsort : sortByID (matchesOf cfg recs) = chosen :: rest) :
    reconcile cfg recs newIP env state0 =
      (if chosen.data = newIP then
        if cfg.cleanupDuplicates ∧ 1 < (matchesOf cfg recs).length then
          ⟨(cleanupModel env rest).1, writeLastIPModel state0 env.writeOk newIP, 0,
            (cleanupModel env rest).2⟩
        else ⟨[], writeLastIPModel state0 env.writeOk newIP, 0, []⟩
      else if env.updateOk then
        if cfg.cleanupDuplicates ∧ 1 < (matchesOf cfg recs).length then
          ⟨ApiCall.update chosen.id newIP cfg.ttl :: (cleanupModel env rest).1,
            writeLastIPModel state0 env.writeOk newIP, 0, (cleanupModel env rest).2⟩
        else ⟨[ApiCall.update chosen.id newIP cfg.ttl],
          writeLastIPModel state0 env.writeOk newIP, 0, []⟩
      else ⟨[ApiCall.update chosen.id newIP cfg.ttl], state0, 6, []⟩) := by
  have hne : matchesOf cfg recs ≠ [] := by
    intro hnil
    rw [hnil] at hsort
    exact List.noConfusion hsort
  simp only [reconcile, if_neg hne, hsort]

/-- C2: in a run where zero records match the configured type and name
and the create call succeeds, exactly one create call is issued with
the configured type, name, resolved IP and TTL as payload, the run
succeeds, and the state cache afterwards reads back the resolved IP. -/
theorem c2_create_on_zero_matches (cfg : Config) (recs : List DomainRecord)
    (ipBody newIP : String) (env : Env) (state0 : Option String)
    (hres : getPublicIP ipBody = Except.ok newIP)
    (hzero : matchesOf cfg recs = [])
    (hcr : env.createOk = true) (hw : env.writeOk = true) :
    (reconcile cfg recs newIP env state0).calls =
      [ApiCall.create cfg.rtype cfg.name newIP cfg.ttl] ∧
    readLastIPModel (reconcile cfg recs newIP env state0).stateFile = newIP ∧
    (reconcile cfg recs newIP env state0).exitCode = 0 := by
  have hout := getPublicIP_ok_trim ipBody newIP hres
  have htrim : trimS newIP = newIP := by
    rw [hout]
    exact trimS_idem ipBody
  have hrec := reconcile_zero_eq cfg recs newIP env state0 hzero
  rw [if_pos hcr] at hrec
  refine ⟨?_, ?_, ?_⟩ <;> rw [hrec]
  show readLastIPModel (writeLastIPModel state0 env.writeOk newIP) = newIP
  rw [hw, writeLastIPModel_ok]
  show trimS (newIP ++ "\n") = newIP
  exact trimS_append_newline newIP htrim

/-- Witness for C2 at a concrete input. -/
theorem c2_create_on_zero_matches_witness :
    getPublicIP "203.0.113.7" = Except.ok "203.0.113.7" ∧
    matchesOf cfg0 [] = [] ∧
    ((reconcile cfg0 [] "203.0.113.7" env0 none).calls =
        [ApiCall.create "A" "hq" "203.0.113.7" 300] ∧
      readLastIPModel (reconcile cfg0 [] "203.0.113.7" env0 none).stateFile =
        "203.0.113.7" ∧
      (reconcile cfg0 [] "203.0.113.7" env0 none).exitCode = 0) :=
  ⟨rfl, rfl,
    c2_create_on_zero_matches cfg0 [] "203.0.113.7" "203.0.113.7" env0 none
      rfl rfl rfl rfl⟩

/-- C4: when the canonical matching record already carries the resolved
IP, no create and no update call is issued, with cleanup disabled or a
single match no mutating call at all is issued, the state cache is
written with the resolved IP, and the run exits successfully. -/
theorem c4_noop_frame (cfg : Config) (recs : List DomainRecord)
    (ipBody newIP : String) (env : Env) (state0 : Option String)
    (chosen : DomainRecord) (rest : List DomainRecord)
    (hres : getPublicIP ipBody = Except.ok newIP)
    (hsort : sortByID (matchesOf cfg recs) = chosen :: rest)
    (hdata : chosen.data = newIP)
    (hw : env.writeOk = true) :
    (reconcile cfg recs newIP env state0).calls.all ApiCall.isDelete = true ∧
    (cfg.cleanupDuplicates = false ∨ (matchesOf cfg recs).length = 1 →
      (reconcile cfg recs newIP env state0).calls = []) ∧
    readLastIPModel (reconcile cfg recs newIP env state0).stateFile = newIP ∧
    (reconcile cfg recs newIP env state0).exitCode = 0 := by
  have hout := getPublicIP_ok_trim ipBody newIP hres
  have htrim : trimS newIP = newIP := by
    rw [hout]
    exact trimS_idem ipBody
  have hrec := reconcile_nonempty_eq cfg recs newIP env state0 chosen rest hsort
  rw [if_pos hdata] at hrec
  have hread : readLastIPModel (writeLastIPModel state0 env.writeOk newIP) = newIP := by
    rw [hw, writeLastIPModel_ok]
    show trimS (newIP ++ "\n") = newIP
    exact trimS_append_newline newIP htrim
  by_cases hcl : cfg.cleanupDuplicates ∧ 1 < (matchesOf cfg recs).length
  · rw [if_pos hcl] at hrec
    rw [hrec]
    refine ⟨?_, ?_, hread, rfl⟩
    · refine List.all_eq_true.mpr ?_
      intro c hc
      obtain ⟨r, _, hr⟩ := List.mem_map.mp hc
      rw [← hr]
      rfl
    · intro hside
      exfalso
      rcases hside with hoff | hone
      · rw [hoff] at hcl
        exact Bool.noConfusion hcl.1
      · rw [hone] at hcl
        omega
  · rw [if_neg hcl] at hrec
    rw [hrec]
    exact ⟨rfl, fun _ => rfl, hread, rfl⟩

/-- Witness for C4 at a concrete input. -/
theorem c4_noop_frame_witness :
    getPublicIP "198.51.100.5" = Except.ok "198.51.100.5" ∧
    sortByID (matchesOf cfg0 [rec5]) = [rec5] ∧
    ((reconcile cfg0 [rec5] "198.51.100.5" env0 none).calls.all ApiCall.isDelete = true ∧
      (cfg0.cleanupDuplicates = false ∨ (matchesOf cfg0 [rec5]).length = 1 →
        (reconcile cfg0 [rec5] "198.51.100.5" env0 none).calls = []) ∧
      readLastIPModel (reconcile cfg0 [rec5] "198.51.100.5" env0 none).stateFile =
        "198.51.100.5" ∧
      (reconcile cfg0 [rec5] "198.51.100.5" env0 none).exitCode = 0) :=
  ⟨rfl, rfl,
    c4_noop_frame cfg0 [rec5] "198.51.100.5" "198.51.100.5" env0 none rec5 []
      rfl rfl rfl rfl⟩

/-- C10: a failed create in the zero-match case exits with code 5, and a
failed update exits with code 6, in both cases before any state-cache
write, so the previously cached content is unchanged. -/
theorem c10_error_before_write (cfg : Config) (recs : List DomainRecord)
    (newIP : String) (env : Env) (state0 : Option String) :
    (matchesOf cfg recs = [] → env.createOk = false →
      (reconcile cfg recs newIP env state0).exitCode = 5 ∧
      (reconcile cfg recs newIP env state0).stateFile = state0 ∧
      (reconcile cfg recs newIP env state0).calls =
        [ApiCall.create cfg.rtype cfg.name newIP cfg.ttl]) ∧
    (∀ chosen rest, sortByID (matchesOf cfg recs) = chosen :: rest →
      chosen.data ≠ newIP → env.updateOk = false →
      (reconcile cfg recs newIP env state0).exitCode = 6 ∧
      (reconcile cfg recs newIP env state0).stateFile = state0 ∧
      (reconcile cfg recs newIP env state0).calls =
        [ApiCall.update chosen.id newIP cfg.ttl]) := by
  constructor
  · intro hzero hcr
    have hrec := reconcile_zero_eq cfg recs newIP env state0 hzero
    rw [hcr] at hrec
    simp only [Bool.false_eq_true, if_false] at hrec
    exact ⟨by rw [hrec], by rw [hrec], by rw [hrec]⟩
  · intro chosen rest hsort hdata hupd
    have hrec := reconcile_nonempty_eq cfg recs newIP env state0 chosen rest hsort
    rw [if_neg hdata, hupd] at hrec
    simp only [Bool.false_eq_true, if_false] at hrec
    exact ⟨by rw [hrec], by rw [hrec], by rw [hrec]⟩

/-- Witness for C10 at concrete inputs, one for the failed create and
one for the failed update. -/
theorem c10_error_before_write_witness :
    ((reconcile cfg0 [] "203.0.113.7" envNoCreate (some "198.51.100.5\n")).exitCode = 5 ∧
      (reconcile cfg0 [] "203.0.113.7" envNoCreate (some "198.51.100.5\n")).stateFile =
        some "198.51.100.5\n" ∧
      (reconcile cfg0 [] "203.0.113.7" envNoCreate (some "198.51.100.5\n")).calls =
        [ApiCall.create cfg0.rtype cfg0.name "203.0.113.7" cfg0.ttl]) ∧
    ((reconcile cfg0 [rec5] "203.0.113.7" envNoUpdate (some "198.51.100.5\n")).exitCode = 6 ∧
      (reconcile cfg0 [rec5] "203.0.113.7" envNoUpdate (some "198.51.100.5\n")).stateFile =
        some "198.51.100.5\n" ∧
      (reconcile cfg0 [rec5] "203.0.113.7" envNoUpdate (some "198.51.100.5\n")).calls =
        [ApiCall.update rec5.id "203.0.113.7" cfg0.ttl]) :=
  ⟨(c10_error_before_write cfg0 [] "203.0.113.7" envNoCreate
      (some "198.51.100.5\n")).1 rfl rfl,
   (c10_error_before_write cfg0 [rec5] "203.0.113.7" envNoUpdate
      (some "198.51.100.5\n")).2 rec5 [] rfl (by decide) rfl⟩

/-- C3: with duplicate cleanup enabled and more than one match, every
matched record except the canonical one receives a delete call, both on
the update branch and on the no-op branch; an update is applied to the
canonical record only; and the outcomes of the cleanup deletes change
neither the calls issued, nor the state write, nor the successful exit
code. -/
theorem c3_cleanup_duplicates (cfg : Config) (recs : List DomainRecord)
    (newIP : String) (env : Env) (state0 : Option String)
    (chosen : DomainRecord) (rest : List DomainRecord)
    (hclean : cfg.cleanupDuplicates = true)
    (hsort : sortByID (matchesOf cfg recs) = chosen :: rest)
    (hmulti : 1 < (matchesOf cfg recs).length)
    (hupd : env.updateOk = true) :
    (reconcile cfg recs newIP env state0).exitCode = 0 ∧
    (chosen.data ≠ newIP →
      (reconcile cfg recs newIP env state0).calls =
        ApiCall.update chosen.id newIP cfg.ttl ::
          rest.map (fun r => ApiCall.delete r.id)) ∧
    (chosen.data = newIP →
      (reconcile cfg recs newIP env state0).calls =
        rest.map (fun r => ApiCall.delete r.id)) ∧
    (reconcile cfg recs newIP env state0).stateFile =
      writeLastIPModel state0 env.writeOk newIP ∧
    (∀ d : Int → Bool,
      (reconcile cfg recs newIP (Env.mk env.createOk env.updateOk d env.writeOk)
          state0).calls = (reconcile cfg recs newIP env state0).calls ∧
      (reconcile cfg recs newIP (Env.mk env.createOk env.updateOk d env.writeOk)
          state0).stateFile = (reconcile cfg recs newIP env state0).stateFile ∧
      (reconcile cfg recs newIP (Env.mk env.createOk env.updateOk d env.writeOk)
          state0).exitCode = (reconcile cfg recs newIP env state0).exitCode) := by
  have hcl : cfg.cleanupDuplicates ∧ 1 < (matchesOf cfg recs).length := ⟨hclean, hmulti⟩
  have hrec := reconcile_nonempty_eq cfg recs newIP env state0 chosen rest hsort
  rw [if_pos hcl] at hrec
  have hrecd := fun (d : Int → Bool) => reconcile_nonempty_eq cfg recs newIP
    (Env.mk env.createOk env.updateOk d env.writeOk) state0 chosen rest hsort
  by_cases hdata : chosen.data = newIP
  · rw [if_pos hdata] at hrec
    refine ⟨by rw [hrec], fun hne => absurd hdata hne,
      fun _ => by rw [hrec]; try rfl, by rw [hrec], ?_⟩
    intro d
    have hd := hrecd d
    rw [if_pos hdata, if_pos hcl] at hd
    refine ⟨?_, ?_, ?_⟩ <;> rw [hd, hrec] <;> try rfl
  · rw [if_neg hdata, if_pos hupd, if_pos hcl] at hrec
    refine ⟨by rw [hrec], fun _ => by rw [hrec]; try rfl, fun heq => absurd heq hdata,
      by rw [hrec], ?_⟩
    intro d
    have hd := hrecd d
    rw [if_neg hdata, if_pos hupd, if_pos hcl] at hd
    refine ⟨?_, ?_, ?_⟩ <;> rw [hd, hrec] <;> try rfl

/-- Witness for C3: the scenario with matching identities 12, 5 and 9,
cleanup enabled and a differing resolved IP: the update goes to
identity 5 only and deletes are issued for identities 9 and 12. -/
theorem c3_cleanup_duplicates_witness :
    (reconcile cfgClean [rec12, rec5, rec9] "203.0.113.7" env0 none).exitCode = 0 ∧
    (reconcile cfgClean [rec12, rec5, rec9] "203.0.113.7" env0 none).calls =
      [ApiCall.update 5 "203.0.113.7" 300, ApiCall.delete 9, ApiCall.delete 12] :=
  ⟨(c3_cleanup_duplicates cfgClean [rec12, rec5, rec9] "203.0.113.7" env0 none
      rec5 [rec9, rec12] rfl (by decide) (by decide) rfl).1,
   (c3_cleanup_duplicates cfgClean [rec12, rec5, rec9] "203.0.113.7" env0 none
      rec5 [rec9, rec12] rfl (by decide) (by decide) rfl).2.1 (by decide)⟩

/-! Lemmas about the retry loop. -/

theorem min_double_backoff (j : Nat) :
    min (min (2 ^ j) 64 * 2) 64 = min (2 ^ (j + 1)) 64 := by
  have hp : 2 ^ (j + 1) = 2 ^ j * 2 := pow_succ 2 j
  rcases le_or_lt (2 ^ j) 64 with h | h
  · rw [min_eq_left h, hp]
  · rw [min_eq_right h.le, hp]
    have h2 : (64 : Nat) ≤ 2 ^ j * 2 := by omega
    rw [min_eq_right (by omega), min_eq_right h2]

theorem doRequestGo_all_transient (oracle : Nat → Outcome) :
    ∀ (rem attempt j : Nat) (last : Option Cause),
    0 < rem →
    (∀ i, attempt ≤ i → i < attempt + rem → isTransient (oracle i) = true) →
    (doRequestGo oracle attempt rem (min (2 ^ j) 64) last).1 =
      Except.error (ReqErr.exceeded (some (causeOf (oracle (attempt + rem - 1))))) ∧
    (doRequestGo oracle attempt rem (min (2 ^ j) 64) last).2 =
      (List.range rem).map (fun k => min (2 ^ (j + k)) 64) := by
  intro rem
  induction rem with
  | zero => intro attempt j last hpos _; omega
  | succ r ih =>
    intro attempt j last _ htrans
    have hcur : isTransient (oracle attempt) = true :=
      htrans attempt (le_refl _) (by omega)
    have hrange : (List.range (r + 1)).map (fun k => min (2 ^ (j + k)) 64) =
        min (2 ^ j) 64 ::
          (List.range r).map (fun k => min (2 ^ (j + 1 + k)) 64) := by
      rw [List.range_succ_eq_map, List.map_cons, List.map_map, Nat.add_zero]
      congr 1
      apply List.map_congr_left
      intro k _
      show min (2 ^ (j + (k + 1))) 64 = min (2 ^ (j + 1 + k)) 64
      have hjk : j + (k + 1) = j + 1 + k := by omega
      rw [hjk]
    have hlast : attempt + 1 + r - 1 = attempt + (r + 1) - 1 := by omega
    cases horc : oracle attempt with
    | transport =>
      have hstep : doRequestGo oracle attempt (r + 1) (min (2 ^ j) 64) last =
          ((doRequestGo oracle (attempt + 1) r (min (min (2 ^ j) 64 * 2) 64)
              (some Cause.transport)).1,
            min (2 ^ j) 64 ::
              (doRequestGo oracle (attempt + 1) r (min (min (2 ^ j) 64 * 2) 64)
                (some Cause.transport)).2) := by
        simp only [doRequestGo, horc]
      cases r with
      | zero =>
        rw [hstep]
        have ha : attempt + (0 + 1) - 1 = attempt := by omega
        rw [ha, horc]
        exact ⟨rfl, rfl⟩
      | succ r2 =>
        have hrec := ih (attempt + 1) (j + 1) (some Cause.transport) (by omega)
          (fun i h1 h2 => htrans i (by omega) (by omega))
        rw [← min_double_backoff, hlast] at hrec
        rw [hstep, hrange]
        exact ⟨hrec.1, by rw [hrec.2]⟩
    | resp status ra body =>
      have hs : 500 ≤ status ∧ status ≤ 599 := by
        rw [horc] at hcur
        simpa [isTransient] using hcur
      have hstep : doRequestGo oracle attempt (r + 1) (min (2 ^ j) 64) last =
          ((doRequestGo oracle (attempt + 1) r (min (min (2 ^ j) 64 * 2) 64)
              (some (Cause.serverError status))).1,
            min (2 ^ j) 64 ::
              (doRequestGo oracle (attempt + 1) r (min (min (2 ^ j) 64 * 2) 64)
                (some (Cause.serverError status))).2) := by
        simp only [doRequestGo, horc]
        rw [if_neg (by omega), if_neg (by omega), if_pos hs]
      cases r with
      | zero =>
        rw [hstep]
        have ha : attempt + (0 + 1) - 1 = attempt := by omega
        rw [ha, horc]
        exact ⟨rfl, rfl⟩
      | succ r2 =>
        have hrec := ih (attempt + 1) (j + 1) (some (Cause.serverError status)) (by omega)
          (fun i h1 h2 => htrans i (by omega) (by omega))
        rw [← min_double_backoff, hlast] at hrec
        rw [hstep, hrange]
        exact ⟨hrec.1, by rw [hrec.2]⟩

/-- C5: when every attempt of one request fails transiently (transport
error or 5xx), the successive waits are 1s, 2s, 4s, doubling and capped
at 64s, the number of attempts (and of sleeps) equals the configured
retry limit, and the result is an exceeded-retries error wrapping the
last transient cause. -/
theorem c5_backoff_sequence (oracle : Nat → Outcome) (maxRetries : Nat)
    (hpos : 0 < maxRetries)
    (htrans : ∀ i, 1 ≤ i → i ≤ maxRetries → isTransient (oracle i) = true) :
    (doRequest oracle maxRetries).2 =
      (List.range maxRetries).map (fun k => min (2 ^ k) 64) ∧
    (doRequest oracle maxRetries).1 =
      Except.error (ReqErr.exceeded (some (causeOf (oracle maxRetries)))) := by
  have h := doRequestGo_all_transient oracle maxRetries 1 0 none hpos
    (fun i h1 h2 => htrans i h1 (by omega))
  have hmin : min (2 ^ 0) 64 = 1 := rfl
  rw [hmin] at h
  have ha : 1 + maxRetries - 1 = maxRetries := by omega
  rw [ha] at h
  refine ⟨?_, h.1⟩
  rw [show (doRequest oracle maxRetries).2 =
    (doRequestGo oracle 1 maxRetries 1 none).2 from rfl, h.2]
  apply List.map_congr_left
  intro k _
  rw [Nat.zero_add]

/-- Witness for C5: eight transport failures produce the capped wait
sequence 1, 2, 4, 8, 16, 32, 64, 64. -/
theorem c5_backoff_sequence_witness :
    (0 < 8 ∧
      ((doRequest oracleTransport 8).2 =
        (List.range 8).map (fun k => min (2 ^ k) 64) ∧
       (doRequest oracleTransport 8).1 =
        Except.error (ReqErr.exceeded (some (causeOf (oracleTransport 8)))))) ∧
    (doRequest oracleTransport 8).2 = [1, 2, 4, 8, 16, 32, 64, 64] :=
  ⟨⟨by decide, c5_backoff_sequence oracleTransport 8 (by decide) (fun i h1 h2 => rfl)⟩,
    by decide⟩

/-- C6 amended: for every 429 response the wait before the retry equals
the Retry-After value when the header is present and Atoi parses it to
a positive integer; otherwise — header absent, value unparsable, or
value zero or negative — the wait equals the current backoff.  In
particular a 429 carrying Retry-After 5 waits 5 seconds regardless of
the current computed backoff. -/
theorem c6_retry_after_positive (oracle : Nat → Outcome) (attempt rem backoff : Nat)
    (last : Option Cause) (ra body : String)
    (hor : oracle attempt = Outcome.resp 429 ra body) :
    ((doRequestGo oracle attempt (rem + 1) backoff last).2.head? =
      some (wait429 ra backoff)) ∧
    (∀ n : Int, ra ≠ "" → atoiGo (trimS ra) = some n → 0 < n →
      wait429 ra backoff = n.toNat) ∧
    (ra = "" ∨ atoiGo (trimS ra) = none ∨ (∀ n, atoiGo (trimS ra) = some n → n ≤ 0) →
      wait429 ra backoff = backoff) ∧
    (ra = "5" → (doRequestGo oracle attempt (rem + 1) backoff last).2.head? = some 5) := by
  have hstep : (doRequestGo oracle attempt (rem + 1) backoff last).2 =
      wait429 ra backoff ::
        (doRequestGo oracle (attempt + 1) rem (min (backoff * 2) 64)
          (some Cause.rateLimited)).2 := by
    simp only [doRequestGo, hor]
    rw [if_pos trivial, if_neg (by omega)]
  refine ⟨by rw [hstep]; rfl, ?_, ?_, ?_⟩
  · intro n hne hat hpos
    unfold wait429
    rw [if_pos hne, hat]
    show (if 0 < n then n.toNat else backoff) = n.toNat
    rw [if_pos hpos]
  · intro hside
    rcases hside with hempty | hnoneat | hnonpos
    · unfold wait429
      rw [if_neg (by rw [hempty]; exact fun hcon => hcon rfl)]
    · unfold wait429
      by_cases hne : ra ≠ ""
      · rw [if_pos hne, hnoneat]
      · rw [if_neg hne]
    · unfold wait429
      by_cases hne : ra ≠ ""
      · rw [if_pos hne]
        cases hat : atoiGo (trimS ra) with
        | none => rfl
        | some n =>
          have := hnonpos n hat
          show (if 0 < n then n.toNat else backoff) = backoff
          rw [if_neg (by omega)]
      · rw [if_neg hne]
  · intro h5
    subst h5
    rw [hstep]
    rfl

/-- C6 counterexample: a 429 response carrying Retry-After 0 — present
and a valid non-negative integer — does not produce a wait of 0 seconds
as the claim demands: do-ddns.go honors the header only for positive
values and waits the current backoff, 1 second here. -/
theorem c6_retry_after_positive_counterexample :
    (doRequest oracle429zero 2).2 = [1] ∧ (1 : Nat) ≠ 0 :=
  ⟨rfl, by decide⟩

/-- Witness for the amended C6: a 429 with Retry-After 5 at a current
backoff of 32 sleeps 5 seconds. -/
theorem c6_retry_after_positive_witness :
    (((doRequestGo oracle429five 1 (1 + 1) 32 none).2.head? =
        some (wait429 "5" 32)) ∧
      (∀ n : Int, "5" ≠ "" → atoiGo (trimS "5") = some n → 0 < n →
        wait429 "5" 32 = n.toNat) ∧
      ("5" = "" ∨ atoiGo (trimS "5") = none ∨
          (∀ n, atoiGo (trimS "5") = some n → n ≤ 0) →
        wait429 "5" 32 = 32) ∧
      ("5" = "5" → (doRequestGo oracle429five 1 (1 + 1) 32 none).2.head? = some 5)) ∧
    wait429 "5" 32 = 5 :=
  ⟨c6_retry_after_positive oracle429five 1 1 32 none "5" "" rfl, by decide⟩

/-! Lemmas about the pagination loop. -/

theorem trimS_replicate_p (m : Nat) :
    trimS (String.mk (List.replicate m 'p')) = String.mk (List.replicate m 'p') := by
  show String.mk (trimL (List.replicate m 'p')) = String.mk (List.replicate m 'p')
  cases m with
  | zero => rfl
  | succ k =>
    have hdrop : (List.replicate (k + 1) 'p').dropWhile isSpaceGo =
        List.replicate (k + 1) 'p' := by
      rw [List.replicate_succ, List.dropWhile_cons, if_neg (by decide)]
    have hrev : (List.replicate (k + 1) 'p').reverse = List.replicate (k + 1) 'p' :=
      List.reverse_replicate (k + 1) 'p'
    unfold trimL dropTrail
    rw [hdrop, hrev, hdrop, hrev]

theorem c7_loop_never_stops :
    ∀ (fuel : Nat) (url : String) (acc : List DomainRecord),
    listAllRecordsFuel loopOracle fuel url acc = none := by
  intro fuel
  induction fuel with
  | zero => intro url acc; rfl
  | succ n ih =>
    intro url acc
    show listAllRecordsFuel loopOracle (n + 1) url acc = none
    simp only [listAllRecordsFuel, loopOracle]
    rw [if_neg (by decide)]
    exact ih _ _

theorem chainOracle_complete (n : Nat) (recsOf : Nat → List DomainRecord) :
    ∀ (k i : Nat) (acc : List DomainRecord) (fuel : Nat), i + k = n → 0 < k →
    k ≤ fuel →
    listAllRecordsFuel (chainOracle n recsOf) fuel
        (String.mk (List.replicate i 'p')) acc =
      some (Except.ok (acc ++ ((List.range k).map (fun j => recsOf (i + j))).join)) := by
  intro k
  induction k with
  | zero => intro i acc fuel _ hpos; omega
  | succ k2 ih =>
    intro i acc fuel hik hpos hfuel
    cases fuel with
    | zero => omega
    | succ f =>
      have hi : i < n := by omega
      have hlen : (String.mk (List.replicate i 'p')).data.length = i := by
        show (List.replicate i 'p').length = i
        exact List.length_replicate i 'p'
      have horc : chainOracle n recsOf (String.mk (List.replicate i 'p')) =
          Except.ok ⟨recsOf i,
            if i + 1 = n then "" else String.mk (List.replicate (i + 1) 'p')⟩ := by
        unfold chainOracle
        rw [hlen, if_pos hi]
      show listAllRecordsFuel (chainOracle n recsOf) (f + 1)
          (String.mk (List.replicate i 'p')) acc = _
      simp only [listAllRecordsFuel, horc]
      by_cases hend : i + 1 = n
      · rw [if_pos hend]
        have htrim : trimS "" = "" := rfl
        rw [htrim, if_pos rfl]
        have hk2 : k2 = 0 := by omega
        subst hk2
        have : ((List.range 1).map (fun j => recsOf (i + j))).join = recsOf i ++ [] := by
          show recsOf (i + 0) ++ [] = recsOf i ++ []
          rw [Nat.add_zero]
        rw [this, List.append_nil]
      · rw [if_neg hend, trimS_replicate_p]
        have hne : String.mk (List.replicate (i + 1) 'p') ≠ "" := by
          intro hcon
          have := congrArg String.data hcon
          rw [List.replicate_succ] at this
          exact List.noConfusion this
        rw [if_neg hne]
        have hk2 : 0 < k2 := by omega
        have hrec := ih (i + 1) (acc ++ recsOf i) f (by omega) hk2 (by omega)
        rw [hrec, List.append_assoc]
        have hjoin : recsOf i ++ ((List.range k2).map (fun j => recsOf (i + 1 + j))).join =
            ((List.range (k2 + 1)).map (fun j => recsOf (i + j))).join := by
          rw [List.range_succ_eq_map, List.map_cons, List.map_map, Nat.add_zero]
          rw [List.join]
          congr 2
          apply List.map_congr_left
          intro j _
          simp only [Function.comp, Nat.succ_eq_add_one]
          have h2 : i + (j + 1) = i + 1 + j := by omega
          rw [h2]
        rw [hjoin]

/-- C7 amended: listing follows the next cursor and aggregates every
record across all pages, terminating exactly when a trimmed next field
is blank; but the source loop carries no upper bound on the number of
pages fetched, so a cursor chain that never goes blank keeps the loop
fetching past every bound. -/
theorem c7_pagination_no_bound (n : Nat) (recsOf : Nat → List DomainRecord)
    (hn : 0 < n) :
    (∀ fuel, n ≤ fuel →
      listAllRecordsFuel (chainOracle n recsOf) fuel "" [] =
        some (Except.ok (((List.range n).map recsOf).join))) ∧
    (∀ (fuel : Nat) (url : String) (acc : List DomainRecord),
      listAllRecordsFuel loopOracle fuel url acc = none) := by
  constructor
  · intro fuel hfuel
    have hemp : ("" : String) = String.mk (List.replicate 0 'p') := rfl
    rw [hemp]
    have h := chainOracle_complete n recsOf n 0 [] fuel (by omega) hn hfuel
    rw [h]
    have : (List.range n).map (fun j => recsOf (0 + j)) = (List.range n).map recsOf := by
      apply List.map_congr_left
      intro j _
      rw [Nat.zero_add]
    rw [List.nil_append, this]
  · exact c7_loop_never_stops

/-- C7 counterexample: with a cursor that always points back to the same
page, the listing loop is still running after fetching 1000 pages: the
source loop has no upper bound on pages fetched, so it does not
terminate for this cursor sequence. -/
theorem c7_pagination_no_bound_counterexample :
    listAllRecordsFuel loopOracle 1000 "x" [] = none := by
  have h : ∀ (fuel : Nat) (acc : List DomainRecord),
      listAllRecordsFuel loopOracle fuel "x" acc = none := by
    intro fuel
    induction fuel with
    | zero => intro acc; rfl
    | succ m ih =>
      intro acc
      show listAllRecordsFuel loopOracle (m + 1) "x" acc = none
      simp only [listAllRecordsFuel, loopOracle]
      rw [if_neg (by decide)]
      exact ih _
  exact h 1000 []

/-- Witness for the amended C7: a three-page chain is aggregated in
order within three fetches. -/
theorem c7_pagination_no_bound_witness :
    0 < 3 ∧
    ((∀ fuel, 3 ≤ fuel →
        listAllRecordsFuel (chainOracle 3 recsOfSample) fuel "" [] =
          some (Except.ok (((List.range 3).map recsOfSample).join))) ∧
      (∀ (fuel : Nat) (url : String) (acc : List DomainRecord),
        listAllRecordsFuel loopOracle fuel url acc = none)) ∧
    listAllRecordsFuel (chainOracle 3 recsOfSample) 5 "" [] =
      some (Except.ok [⟨0, "A", "hq", "198.51.100.77", 300⟩,
        ⟨1, "A", "hq", "198.51.100.77", 300⟩, ⟨2, "A", "hq", "198.51.100.77", 300⟩]) :=
  ⟨by decide, c7_pagination_no_bound 3 recsOfSample (by decide), by rfl⟩

/-- C9 amended: the shell implementation attempts to exclusively create
the lock file before any network operation and, finding it already
present, logs and exits successfully having performed no network
operation; the Go implementation consults no lock at all and behaves
identically whether or not a lock file exists. -/
theorem c9_run_lock_shell_only (rtype rname : String) (ttl : Int)
    (ipResp : Option String) (found : List (Int × String)) (env : ShEnv)
    (state0 : Option String) :
    ((shMain true rtype rname ttl ipResp found env state0).steps = [] ∧
      (shMain true rtype rname ttl ipResp found env state0).exitCode = 0 ∧
      (shMain true rtype rname ttl ipResp found env state0).stateFile = state0) ∧
    (∀ (ipBody : String) (listResult : Except String (List DomainRecord))
        (cfg : Config) (genv : Env) (gstate : Option String),
      goMain true ipBody listResult cfg genv gstate =
        goMain false ipBody listResult cfg genv gstate) :=
  ⟨⟨rfl, rfl, rfl⟩, fun _ _ _ _ _ => rfl⟩

/-- C9 counterexample: a run of the Go binary in the presence of a lock
file still performs network operations — here it fetches the public IP,
lists the records and issues a create call — so the claim that every
run checks a lock file and exits without network activity when it
exists fails on the Go implementation. -/
theorem c9_run_lock_shell_only_counterexample :
    (goMain true "203.0.113.7" (Except.ok []) cfg0 env0 none).1 =
      [RunStep.fetchIP, RunStep.listRecords,
        RunStep.api (ApiCall.create "A" "hq" "203.0.113.7" 300)] ∧
    ([RunStep.fetchIP, RunStep.listRecords,
        RunStep.api (ApiCall.create "A" "hq" "203.0.113.7" 300)] : List RunStep) ≠ [] :=
  ⟨rfl, by decide⟩

/-! Lemmas relating the net parsers to the declarative dotted-quad
predicate of the specification. -/

theorem valAcc_nil (n : Nat) : valAcc n [] = n := rfl

theorem valAcc_cons (n : Nat) (c : Char) (l : List Char) :
    valAcc n (c :: l) = valAcc (n * 10 + (c.toNat - 48)) l := rfl

theorem valAcc_le (n : Nat) (l : List Char) : n ≤ valAcc n l := by
  induction l generalizing n with
  | nil => exact le_refl n
  | cons c l2 ih =>
    rw [valAcc_cons]
    exact le_trans (by omega) (ih (n * 10 + (c.toNat - 48)))

theorem dtoiGo_complete (ds : List Char) :
    ∀ (r : List Char) (n i : Nat),
    ds ≠ [] → (∀ c ∈ ds, c.isDigit = true) →
    (∀ c, r.head? = some c → c.isDigit = false) →
    valAcc n ds < 0xFFFFFF →
    dtoiGo (ds ++ r) n i = some (valAcc n ds, i + ds.length) := by
  induction ds with
  | nil => intro r n i hne; exact absurd rfl hne
  | cons c ds2 ih =>
    intro r n i _ hdig hr hbig
    have hc : c.isDigit = true := hdig c (List.mem_cons_self c ds2)
    have hval : valAcc n (c :: ds2) = valAcc (n * 10 + (c.toNat - 48)) ds2 :=
      valAcc_cons n c ds2
    have hsmall : n * 10 + (c.toNat - 48) < 0xFFFFFF := by
      have := valAcc_le (n * 10 + (c.toNat - 48)) ds2
      rw [hval] at hbig
      omega
    show dtoiGo (c :: (ds2 ++ r)) n i = _
    simp only [dtoiGo, hc, if_true]
    rw [if_neg (by omega)]
    cases hds2 : ds2 with
    | nil =>
      subst hds2
      cases r with
      | nil =>
        show (if (i + 1) == 0 then none else some (n * 10 + (c.toNat - 48), i + 1)) = _
        rw [if_neg (by simp)]
        rw [hval, valAcc_nil]
        rfl
      | cons c2 r2 =>
        have hc2 : c2.isDigit = false := hr c2 rfl
        show dtoiGo (c2 :: r2) (n * 10 + (c.toNat - 48)) (i + 1) = _
        simp only [dtoiGo, hc2, Bool.false_eq_true, if_false]
        rw [if_neg (by simp)]
        rw [hval, valAcc_nil]
        rfl
    | cons c2 ds3 =>
      rw [← hds2]
      have hne2 : ds2 ≠ [] := by rw [hds2]; exact List.cons_ne_nil c2 ds3
      have hrec := ih r (n * 10 + (c.toNat - 48)) (i + 1) hne2
        (fun x hx => hdig x (List.mem_cons_of_mem c hx)) hr (by rw [← hval]; exact hbig)
      rw [hrec, hval]
      have hl : i + 1 + ds2.length = i + (ds2.length + 1) := by omega
      rw [hl]
      rfl

theorem dtoiGo_sound (s : List Char) :
    ∀ (n i v j : Nat), dtoiGo s n i = some (v, j) →
    ∃ ds r, s = ds ++ r ∧ (∀ c ∈ ds, c.isDigit = true) ∧
      (∀ c, r.head? = some c → c.isDigit = false) ∧
      v = valAcc n ds ∧ j = i + ds.length ∧ (i = 0 → ds ≠ []) := by
  induction s with
  | nil =>
    intro n i v j h
    simp only [dtoiGo] at h
    by_cases hi : i == 0
    · rw [if_pos hi] at h
      exact absurd h (by simp)
    · rw [if_neg hi] at h
      injection h with h2
      injection h2 with hv hj
      refine ⟨[], [], rfl, by simp, by simp, hv.symm,
        by rw [List.length_nil, Nat.add_zero]; exact hj.symm, ?_⟩
      intro h0
      rw [h0] at hi
      exact (hi (by decide)).elim
  | cons c cs ih =>
    intro n i v j h
    simp only [dtoiGo] at h
    by_cases hc : c.isDigit
    · rw [if_pos hc] at h
      by_cases hbig : 0xFFFFFF ≤ n * 10 + (c.toNat - 48)
      · rw [if_pos hbig] at h
        exact absurd h (by simp)
      · rw [if_neg hbig] at h
        obtain ⟨ds2, r, hs, hdig, hr, hv, hj, _⟩ :=
          ih (n * 10 + (c.toNat - 48)) (i + 1) v j h
        refine ⟨c :: ds2, r, by rw [List.cons_append, hs], ?_, hr, ?_, by simp [hj]; omega, ?_⟩
        · intro x hx
          rcases List.mem_cons.mp hx with hxc | hxs
          · exact hxc ▸ hc
          · exact hdig x hxs
        · rw [valAcc_cons]
          exact hv
        · intro _
          exact List.cons_ne_nil c ds2
    · have hcf : c.isDigit = false := by
        cases hval : c.isDigit
        · rfl
        · exact absurd hval hc
      rw [hcf] at h
      simp only [Bool.false_eq_true, if_false] at h
      by_cases hi : i == 0
      · rw [if_pos hi] at h
        exact absurd h (by simp)
      · rw [if_neg hi] at h
        injection h with h2
        injection h2 with hv hj
        refine ⟨[], c :: cs, rfl, by simp, ?_, hv.symm,
          by rw [List.length_nil, Nat.add_zero]; exact hj.symm, ?_⟩
        · intro x hx
          injection hx with hx2
          rw [← hx2]
          exact hcf
        · intro h0
          rw [h0] at hi
          exact (hi (by decide)).elim

theorem parseOctet_complete (ds r : List Char)
    (hne : ds ≠ []) (hdig : ∀ c ∈ ds, c.isDigit = true)
    (hr : ∀ c, r.head? = some c → c.isDigit = false)
    (hlead : ds.length = 1 ∨ ds.head? ≠ some '0')
    (hval : natOfDigits ds ≤ 255) :
    parseOctet (ds ++ r) = some (natOfDigits ds, r) := by
  have hd : dtoi (ds ++ r) = some (natOfDigits ds, 0 + ds.length) :=
    dtoiGo_complete ds r 0 0 hne hdig hr (by unfold natOfDigits at hval; omega)
  unfold parseOctet
  rw [hd]
  show (if 255 < natOfDigits ds then none
    else if 1 < 0 + ds.length ∧ (ds ++ r).head? = some '0' then none
    else some (natOfDigits ds, (ds ++ r).drop (0 + ds.length))) = some (natOfDigits ds, r)
  rw [if_neg (by omega)]
  have hhead : (ds ++ r).head? = ds.head? := by
    cases ds with
    | nil => exact absurd rfl hne
    | cons x xs => rfl
  have hnolead : ¬(1 < 0 + ds.length ∧ (ds ++ r).head? = some '0') := by
    rcases hlead with h1 | h0
    · intro hcon
      omega
    · intro hcon
      rw [hhead] at hcon
      exact h0 hcon.2
  rw [if_neg hnolead]
  have hdrop : (ds ++ r).drop (0 + ds.length) = r := by
    rw [Nat.zero_add]
    exact List.drop_left ds r
  rw [hdrop]

theorem parseOctet_sound (s : List Char) (v : Nat) (rest : List Char)
    (h : parseOctet s = some (v, rest)) :
    ∃ ds, s = ds ++ rest ∧ ds ≠ [] ∧ (∀ c ∈ ds, c.isDigit = true) ∧
      (∀ c, rest.head? = some c → c.isDigit = false) ∧
      v = natOfDigits ds ∧ v ≤ 255 ∧ (ds.length = 1 ∨ ds.head? ≠ some '0') := by
  unfold parseOctet at h
  cases hd : dtoi s with
  | none => rw [hd] at h; exact absurd h (by simp)
  | some p =>
    obtain ⟨n, cnt⟩ := p
    rw [hd] at h
    replace h : (if 255 < n then none
      else if 1 < cnt ∧ s.head? = some '0' then none
      else some (n, s.drop cnt)) = some (v, rest) := h
    by_cases hn : 255 < n
    · rw [if_pos hn] at h
      exact absurd h (by simp)
    · rw [if_neg hn] at h
      by_cases hlead : 1 < cnt ∧ s.head? = some '0'
      · rw [if_pos hlead] at h
        exact absurd h (by simp)
      · rw [if_neg hlead] at h
        injection h with h2
        injection h2 with hv hrest
        obtain ⟨ds, r, hs, hdig, hr, hval2, hcnt, hne0⟩ := dtoiGo_sound s 0 0 n cnt hd
        have hned : ds ≠ [] := hne0 rfl
        have hcnt2 : cnt = ds.length := by omega
        have hrr : r = rest := by
          rw [← hrest, hs, hcnt2, List.drop_left ds r]
        refine ⟨ds, by rw [hs, hrr], hned, hdig, by rw [← hrr]; exact hr, ?_, ?_, ?_⟩
        · rw [← hv, hval2]
          rfl
        · omega
        · by_cases hlen : ds.length = 1
          · exact Or.inl hlen
          · refine Or.inr ?_
            intro hcon
            apply hlead
            constructor
            · have h1 : 1 ≤ ds.length := by
                cases ds with
                | nil => exact absurd rfl hned
                | cons a l => simp
              omega
            · rw [hs]
              cases ds with
              | nil => exact absurd rfl hned
              | cons a l => exact hcon

theorem expectDot_dot (rest : List Char) : expectDot ('.' :: rest) = some rest := by
  simp [expectDot]

theorem expectDot_sound (s rest : List Char) (h : expectDot s = some rest) :
    s = '.' :: rest := by
  cases s with
  | nil => exact absurd h (by simp [expectDot])
  | cons c r =>
    simp only [expectDot] at h
    by_cases hc : c = '.'
    · rw [if_pos hc] at h
      injection h with h2
      rw [hc, h2]
    · rw [if_neg hc] at h
      exact absurd h (by simp)

theorem isOctetStr_spec (f : List Char) (h : isOctetStr f = true) :
    f ≠ [] ∧ (∀ c ∈ f, c.isDigit = true) ∧ (f.length = 1 ∨ f.head? ≠ some '0') ∧
      natOfDigits f ≤ 255 := by
  unfold isOctetStr at h
  simp only [Bool.and_eq_true, decide_eq_true_eq, List.all_eq_true,
    Bool.or_eq_true, beq_iff_eq] at h
  exact ⟨h.1.1.1, h.1.1.2, h.1.2, h.2⟩

theorem isOctetStr_intro (f : List Char) (hne : f ≠ [])
    (hdig : ∀ c ∈ f, c.isDigit = true) (hlead : f.length = 1 ∨ f.head? ≠ some '0')
    (hval : natOfDigits f ≤ 255) : isOctetStr f = true := by
  unfold isOctetStr
  simp only [Bool.and_eq_true, decide_eq_true_eq, List.all_eq_true,
    Bool.or_eq_true, beq_iff_eq]
  exact ⟨⟨⟨hne, hdig⟩, hlead⟩, hval⟩

theorem digit_ne_dot (c : Char) (h : c.isDigit = true) : c ≠ '.' := by
  intro hcon
  rw [hcon] at h
  exact Bool.noConfusion h

theorem splitOn_digits_dot (f rest : List Char) (hdig : ∀ c ∈ f, c.isDigit = true) :
    (f ++ '.' :: rest).splitOn '.' = f :: rest.splitOn '.' := by
  show (f ++ '.' :: rest).splitOnP (· == '.') = f :: rest.splitOnP (· == '.')
  apply List.splitOnP_first
  · intro x hx hbeq
    exact digit_ne_dot x (hdig x hx) (eq_of_beq hbeq)
  · exact beq_self_eq_true '.'

theorem splitOn_digits_single (f : List Char) (hdig : ∀ c ∈ f, c.isDigit = true) :
    f.splitOn '.' = [f] := by
  show f.splitOnP (· == '.') = [f]
  apply List.splitOnP_eq_single
  intro x hx hbeq
  exact digit_ne_dot x (hdig x hx) (eq_of_beq hbeq)

theorem intercalate_four (x : Char) (a b c d : List Char) :
    [x].intercalate [a, b, c, d] = a ++ x :: (b ++ x :: (c ++ x :: d)) := by
  simp [List.intercalate, List.intersperse]

theorem parseIPv4_complete (a b c d : List Char)
    (ha : isOctetStr a = true) (hb : isOctetStr b = true)
    (hc : isOctetStr c = true) (hd : isOctetStr d = true) :
    parseIPv4 (a ++ '.' :: (b ++ '.' :: (c ++ '.' :: d))) =
      some [natOfDigits a, natOfDigits b, natOfDigits c, natOfDigits d] := by
  obtain ⟨hne_a, hdig_a, hlead_a, hval_a⟩ := isOctetStr_spec a ha
  obtain ⟨hne_b, hdig_b, hlead_b, hval_b⟩ := isOctetStr_spec b hb
  obtain ⟨hne_c, hdig_c, hlead_c, hval_c⟩ := isOctetStr_spec c hc
  obtain ⟨hne_d, hdig_d, hlead_d, hval_d⟩ := isOctetStr_spec d hd
  have hdot : ∀ (R : List Char) (x : Char), ('.' :: R).head? = some x → x.isDigit = false := by
    intro R x hx
    injection hx with hx2
    rw [← hx2]
    rfl
  have hnil : ∀ x : Char, ([] : List Char).head? = some x → x.isDigit = false := by
    intro x hx
    exact absurd hx (by simp)
  have h1 := parseOctet_complete a ('.' :: (b ++ '.' :: (c ++ '.' :: d)))
    hne_a hdig_a (hdot _) hlead_a hval_a
  have h2 := parseOctet_complete b ('.' :: (c ++ '.' :: d)) hne_b hdig_b (hdot _) hlead_b hval_b
  have h3 := parseOctet_complete c ('.' :: d) hne_c hdig_c (hdot _) hlead_c hval_c
  have h4 : parseOctet (d ++ []) = some (natOfDigits d, []) :=
    parseOctet_complete d [] hne_d hdig_d hnil hlead_d hval_d
  rw [List.append_nil] at h4
  unfold parseIPv4
  rw [h1, Option.some_bind, expectDot_dot, Option.some_bind, h2, Option.some_bind,
    expectDot_dot, Option.some_bind, h3, Option.some_bind, expectDot_dot,
    Option.some_bind, h4, Option.some_bind, if_pos rfl]

theorem spec_of_parseIPv4 (s : List Char) (v : List Nat) (h : parseIPv4 s = some v) :
    specDottedQuad s = true := by
  unfold parseIPv4 at h
  rw [Option.bind_eq_some] at h
  obtain ⟨p1, hp1, h⟩ := h
  rw [Option.bind_eq_some] at h
  obtain ⟨s2, hs2, h⟩ := h
  rw [Option.bind_eq_some] at h
  obtain ⟨p2, hp2, h⟩ := h
  rw [Option.bind_eq_some] at h
  obtain ⟨s4, hs4, h⟩ := h
  rw [Option.bind_eq_some] at h
  obtain ⟨p3, hp3, h⟩ := h
  rw [Option.bind_eq_some] at h
  obtain ⟨s6, hs6, h⟩ := h
  rw [Option.bind_eq_some] at h
  obtain ⟨p4, hp4, h⟩ := h
  by_cases hend : p4.2 = []
  · obtain ⟨dsa, hsa, hnea, hdiga, _, hva, hba, hla⟩ :=
      parseOctet_sound s p1.1 p1.2 (by rw [← hp1])
    obtain ⟨dsb, hsb, hneb, hdigb, _, hvb, hbb, hlb⟩ :=
      parseOctet_sound s2 p2.1 p2.2 (by rw [← hp2])
    obtain ⟨dsc, hsc, hnec, hdigc, _, hvc, hbc, hlc⟩ :=
      parseOctet_sound s4 p3.1 p3.2 (by rw [← hp3])
    obtain ⟨dsd, hsd, hned, hdigd, _, hvd, hbd, hld⟩ :=
      parseOctet_sound s6 p4.1 p4.2 (by rw [← hp4])
    have e2 : p1.2 = '.' :: s2 := expectDot_sound _ _ hs2
    have e4 : p2.2 = '.' :: s4 := expectDot_sound _ _ hs4
    have e6 : p3.2 = '.' :: s6 := expectDot_sound _ _ hs6
    rw [hend, List.append_nil] at hsd
    rw [e6] at hsc
    rw [e4] at hsb
    rw [e2] at hsa
    unfold specDottedQuad
    rw [hsa, splitOn_digits_dot dsa _ hdiga, hsb, splitOn_digits_dot dsb _ hdigb,
      hsc, splitOn_digits_dot dsc _ hdigc, hsd, splitOn_digits_single dsd hdigd]
    show (isOctetStr dsa && isOctetStr dsb && isOctetStr dsc && isOctetStr dsd) = true
    rw [isOctetStr_intro dsa hnea hdiga hla (by omega),
      isOctetStr_intro dsb hneb hdigb hlb (by omega),
      isOctetStr_intro dsc hnec hdigc hlc (by omega),
      isOctetStr_intro dsd hned hdigd hld (by omega)]
    rfl
  · rw [if_neg hend] at h
    exact absurd h (by simp)

theorem spec_decomp (s : List Char) (h : specDottedQuad s = true) :
    ∃ a b c d, s = a ++ '.' :: (b ++ '.' :: (c ++ '.' :: d)) ∧
      isOctetStr a = true ∧ isOctetStr b = true ∧ isOctetStr c = true ∧
      isOctetStr d = true := by
  unfold specDottedQuad at h
  split at h
  next a b c d heq =>
    have hs : [('.' : Char)].intercalate (s.splitOn '.') = s :=
      List.intercalate_splitOn s '.'
    rw [heq, intercalate_four] at hs
    simp only [Bool.and_eq_true] at h
    exact ⟨a, b, c, d, hs.symm, h.1.1.1, h.1.1.2, h.1.2, h.2⟩
  next =>
    exact absurd h (by simp)

theorem parseIPv4_length (s : List Char) (q : List Nat) (h : parseIPv4 s = some q) :
    q.length = 4 := by
  unfold parseIPv4 at h
  rw [Option.bind_eq_some] at h
  obtain ⟨p1, _, h⟩ := h
  rw [Option.bind_eq_some] at h
  obtain ⟨s2, _, h⟩ := h
  rw [Option.bind_eq_some] at h
  obtain ⟨p2, _, h⟩ := h
  rw [Option.bind_eq_some] at h
  obtain ⟨s4, _, h⟩ := h
  rw [Option.bind_eq_some] at h
  obtain ⟨p3, _, h⟩ := h
  rw [Option.bind_eq_some] at h
  obtain ⟨s6, _, h⟩ := h
  rw [Option.bind_eq_some] at h
  obtain ⟨p4, _, h⟩ := h
  by_cases hend : p4.2 = []
  · rw [if_pos hend] at h
    injection h with h2
    rw [← h2]
    rfl
  · rw [if_neg hend] at h
    exact absurd h (by simp)

theorem to4_v4mapped (q : List Nat) (hq : q.length = 4) :
    to4 (v4mapped q) = some q := by
  have hlen : (v4mapped q).length = 16 := by
    unfold v4mapped
    simp [hq]
  have hne4 : ¬(v4mapped q).length = 4 := by
    rw [hlen]
    omega
  have hcond : (v4mapped q).length = 16 ∧
      ((v4mapped q).take 10).all (· == 0) = true ∧
      (v4mapped q).get? 10 = some 255 ∧ (v4mapped q).get? 11 = some 255 :=
    ⟨hlen, rfl, rfl, rfl⟩
  unfold to4
  rw [if_neg hne4, if_pos hcond]
  rfl

theorem find?_append_all_false (p : Char → Bool) (f r : List Char)
    (hf : ∀ c ∈ f, p c = false) : (f ++ r).find? p = r.find? p := by
  induction f with
  | nil => rfl
  | cons x xs ih =>
    show List.find? p (x :: (xs ++ r)) = _
    rw [List.find?_cons_of_neg _ (by simp [hf x (List.mem_cons_self x xs)])]
    exact ih (fun c hc => hf c (List.mem_cons_of_mem _ hc))

theorem digit_not_sep (c : Char) (h : c.isDigit = true) :
    (c == '.' || c == ':') = false := by
  have h1 : c ≠ '.' := by
    intro hcon
    rw [hcon] at h
    exact Bool.noConfusion h
  have h2 : c ≠ ':' := by
    intro hcon
    rw [hcon] at h
    exact Bool.noConfusion h
  simp [h1, h2]

theorem find?_dot_of_spec (s : List Char) (h : specDottedQuad s = true) :
    s.find? (fun c => c == '.' || c == ':') = some '.' := by
  obtain ⟨a, b, c, d, hs, ha, _, _, _⟩ := spec_decomp s h
  obtain ⟨_, hdig, _, _⟩ := isOctetStr_spec a ha
  rw [hs, find?_append_all_false _ a _ (fun x hx => digit_not_sep x (hdig x hx))]
  rw [List.find?_cons_of_pos _ (by decide)]

/-- C8 amended: the public IP resolver returns the trimmed response
body exactly when that trimmed body is a syntactically correct
dotted-quad IPv4 address or an IPv4-mapped IPv6 literal (an IPv6
spelling whose To4 form exists, such as ::ffff:203.0.113.7); it fails
with an invalid-address error for every other body, including general
IPv6 literals, an empty body, or an error page. -/
theorem c8_resolver_accepts (body out : String) :
    getPublicIP body = Except.ok out ↔
      out = trimS body ∧
        (specDottedQuad (trimS body).data = true ∨
          mappedV6Accepted (trimS body).data = true) := by
  constructor
  · intro h
    refine ⟨getPublicIP_ok_trim body out h, ?_⟩
    simp only [getPublicIP] at h
    cases hp : parseIP (trimS body).data with
    | none =>
      rw [hp] at h
      exact absurd h (by simp)
    | some p =>
      rw [hp] at h
      replace h : (if (to4 p).isSome = true then Except.ok (trimS body)
          else Except.error ("invalid IPv4: " ++ trimS body)) = Except.ok out := h
      by_cases hto : (to4 p).isSome = true
      · unfold parseIP at hp
        cases hf : (trimS body).data.find? (fun c => c == '.' || c == ':') with
        | none =>
          rw [hf] at hp
          exact absurd hp (by simp)
        | some c =>
          rw [hf] at hp
          replace hp : (if c = '.' then (parseIPv4 (trimS body).data).map v4mapped
              else if c = ':' then parseIPv6 (trimS body).data else none) = some p := hp
          by_cases hdot : c = '.'
          · rw [if_pos hdot] at hp
            left
            rw [Option.map_eq_some'] at hp
            obtain ⟨q, hq, _⟩ := hp
            exact spec_of_parseIPv4 _ q hq
          · by_cases hcol : c = ':'
            · rw [if_neg hdot, if_pos hcol] at hp
              right
              unfold mappedV6Accepted
              rw [hf]
              show (if c = ':' then
                  match parseIPv6 (trimS body).data with
                  | some p => (to4 p).isSome
                  | none => false
                else false) = true
              rw [if_pos hcol, hp]
              exact hto
            · rw [if_neg hdot, if_neg hcol] at hp
              exact absurd hp (by simp)
      · rw [if_neg hto] at h
        exact absurd h (by simp)
  · rintro ⟨hout, hcase⟩
    subst hout
    rcases hcase with hspec | hmap
    · obtain ⟨a, b, c, d, hs, ha, hb2, hc2, hd2⟩ := spec_decomp _ hspec
      have hpar := parseIPv4_complete a b c d ha hb2 hc2 hd2
      have hfind := find?_dot_of_spec _ hspec
      have hpip : parseIP (trimS body).data =
          some (v4mapped [natOfDigits a, natOfDigits b, natOfDigits c, natOfDigits d]) := by
        unfold parseIP
        rw [hfind]
        show (if ('.' : Char) = '.' then ((parseIPv4 (trimS body).data).map v4mapped)
            else if ('.' : Char) = ':' then parseIPv6 (trimS body).data else none) = _
        rw [if_pos rfl, hs, hpar]
        rfl
      simp only [getPublicIP]
      rw [hpip]
      show (if (to4 (v4mapped [natOfDigits a, natOfDigits b, natOfDigits c,
          natOfDigits d])).isSome = true then Except.ok (trimS body)
        else Except.error ("invalid IPv4: " ++ trimS body)) = Except.ok (trimS body)
      rw [to4_v4mapped [natOfDigits a, natOfDigits b, natOfDigits c, natOfDigits d] rfl]
      rfl
    · unfold mappedV6Accepted at hmap
      cases hf : (trimS body).data.find? (fun c => c == '.' || c == ':') with
      | none =>
        rw [hf] at hmap
        exact absurd hmap (by simp)
      | some c =>
        rw [hf] at hmap
        replace hmap : (if c = ':' then
            match parseIPv6 (trimS body).data with
            | some p => (to4 p).isSome
            | none => false
          else false) = true := hmap
        by_cases hcol : c = ':'
        · rw [if_pos hcol] at hmap
          cases hp6 : parseIPv6 (trimS body).data with
          | none =>
            rw [hp6] at hmap
            exact absurd hmap (by simp)
          | some p =>
            rw [hp6] at hmap
            replace hmap : (to4 p).isSome = true := hmap
            have hpip : parseIP (trimS body).data = some p := by
              unfold parseIP
              rw [hf]
              show (if c = '.' then ((parseIPv4 (trimS body).data).map v4mapped)
                  else if c = ':' then parseIPv6 (trimS body).data else none) = some p
              rw [if_neg (by rw [hcol]; decide), if_pos hcol, hp6]
            simp only [getPublicIP]
            rw [hpip]
            show (if (to4 p).isSome = true then Except.ok (trimS body)
              else Except.error ("invalid IPv4: " ++ trimS body)) = Except.ok (trimS body)
            rw [if_pos hmap]
        · rw [if_neg hcol] at hmap
          exact absurd hmap (by simp)

/-- C8 counterexample: the body ::ffff:203.0.113.7 is an IPv6 literal,
not a dotted-quad IPv4 address, yet the resolver of do-ddns.go returns
it: ParseIP parses it and To4 is non-nil for the IPv4-mapped form, so
the claim that every body other than a dotted quad fails — including an
IPv6 literal — is false. -/
theorem c8_resolver_accepts_counterexample :
    getPublicIP "::ffff:203.0.113.7" = Except.ok "::ffff:203.0.113.7" ∧
    specDottedQuad "::ffff:203.0.113.7".data = false := by
  constructor
  · rfl
  · decide
